import Mathlib

/-!
Shallow embedding of `markov.go`, a word-level Markov-chain text generator
(after the Go codewalk).  The external collaborators are modelled as pure
data: the input token stream of `Build` is the list of words that
`fmt.Fscan` successfully yields, together with the condition that ends the
stream (`none` = end-of-stream, `some e` = a read error `e`); the buffered
output writer of `Generate` is an abstract sink `Nat → Option String`
giving the outcome of its k-th write operation (each `WriteString` call,
and the final deferred `Flush`; `none` = success, `some e` = failure with
error `e`); the random source is a choice oracle `Nat → Nat` reduced
modulo the candidate count, exactly covering the values `rand.Intn` can
return.  A result of `none` (on an `Option`-valued embedding of a whole
run) models a Go runtime panic (out-of-bounds slice index).
-/

/-- `Prefix.String` from the source: the words of the sliding window
joined with single spaces (`strings.Join(p, " ")`), used as the map key. -/
def pfxKey (p : List String) : String :=
  String.intercalate " " p

/-- `Prefix.Shift` from the source: `copy(p, p[1:]); p[len(p)-1] = word`
drops the oldest word and appends `word`.  On a length-0 window the store
`p[len(p)-1]` indexes position `-1` and panics, modelled by `none`. -/
def pfxShift (p : List String) (w : String) : Option (List String) :=
  match p with
  | [] => none
  | _ :: t => some (t ++ [w])

/-- Go map read `c.chain[key]`: an absent key reads as `nil` (`[]`).
The map is modelled as an insertion-ordered association list. -/
def mapGet : List (String × List String) → String → List String
  | [], _ => []
  | (k, ws) :: rest, key => if k = key then ws else mapGet rest key

/-- `c.chain[key] = append(c.chain[key], word)`: append `w` to the entry
of `key`, creating the entry (at the end, preserving first-insertion
order of keys) when absent. -/
def mapAppend : List (String × List String) → String → String → List (String × List String)
  | [], key, w => [(key, [w])]
  | (k, ws) :: rest, key, w =>
    if k = key then (k, ws ++ [w]) :: rest
    else (k, ws) :: mapAppend rest key w

/-- `type Chain struct { chain map[string][]string; prefixLen int }`.
(`prefixLen` is rendered `pfxLen`.) -/
structure Chain where
  chain : List (String × List String)
  pfxLen : Nat
deriving Repr, DecidableEq

/-- `NewChain`: empty map, given window length. -/
def newChain (pfxLength : Nat) : Chain :=
  ⟨[], pfxLength⟩

/-- The loop of `Chain.Build`: for each word read, append it under the
current window's key, then shift the window.  `none` models the panic of
`Shift` on a length-0 window. -/
def buildLoop (m : List (String × List String)) (p : List String) :
    List String → Option (List (String × List String))
  | [] => some m
  | w :: ws =>
    match pfxShift p w with
    | none => none
    | some p2 => buildLoop (mapAppend m (pfxKey p) w) p2 ws

/-- `Chain.Build`: reads words until the stream ends.  `endErr` is the
condition that terminated `fmt.Fscan` (`none` = end-of-stream, `some e` =
read error `e`); the source treats both identically (`if err != nil
{ break }`) and `Build` returns nothing, so `endErr` only ends the loop
and is discarded. -/
def Chain.build (c : Chain) (toks : List String) (endErr : Option String) : Option Chain :=
  let _ := endErr
  match buildLoop c.chain (List.replicate c.pfxLen "") toks with
  | none => none
  | some m => some ⟨m, c.pfxLen⟩

/-- The generator's loop state: the chain map read by the receiver, the
sliding window, the tokens successfully written so far, and the number of
write operations performed on the sink. -/
structure GenSt where
  ch : List (String × List String)
  p : List String
  out : List String
  ops : Nat
deriving Repr, DecidableEq

/-- Outcome of a completed (non-panicking) `Chain.Generate` run: the
tokens written, the error value returned (`none` = `nil`), the outcome of
the final deferred `Flush` (which the source discards), and the chain map
as it stands after the run. -/
structure GenResult where
  out : List String
  err : Option String
  flushErr : Option String
  chainAfter : List (String × List String)
deriving Repr, DecidableEq

/-- The loop of `Chain.Generate` (`for i := 0; i < n; i++`), with `n - i`
as fuel: look up the window's key; break on an absent/empty entry; pick
`words[rand.Intn(len(words))]` via the choice oracle; write the token
(one sink operation; on failure return the error); shift the window.
`none` models the panic of `Shift` on a length-0 window. -/
def genLoop (pick : Nat → Nat) (sink : Nat → Option String) :
    Nat → GenSt → Option (GenSt × Option String)
  | 0, st => some (st, none)
  | i + 1, st =>
    let words := mapGet st.ch (pfxKey st.p)
    if h : words = [] then some (st, none)
    else
      let w := words.get ⟨pick st.out.length % words.length,
        Nat.mod_lt _ (List.length_pos.mpr h)⟩
      match sink st.ops with
      | some e => some ({ st with ops := st.ops + 1 }, some e)
      | none =>
        match pfxShift st.p w with
        | none => none
        | some p2 => genLoop pick sink i ⟨st.ch, p2, st.out ++ [w], st.ops + 1⟩

/-- `Chain.Generate(w, n)`: run the loop from a window of `pfxLen` empty
strings, at most `n` iterations (none when `n ≤ 0`).  The deferred
`bufWriter.Flush()` then runs: with a sticky write error it returns that
error without a new sink operation, otherwise it performs one final sink
operation; either way the source ignores its result, recorded here in
`flushErr`.  The function's return value is `err`. -/
def Chain.generate (c : Chain) (pick : Nat → Nat) (sink : Nat → Option String)
    (n : Int) : Option GenResult :=
  match genLoop pick sink n.toNat ⟨c.chain, List.replicate c.pfxLen "", [], 0⟩ with
  | none => none
  | some (st, e) =>
    let fe := match e with
      | some e0 => some e0
      | none => sink st.ops
    some ⟨st.out, e, fe, st.ch⟩

/-- The (key, token) pair each build step records, in input order:
the window before reading token `w` keys `w`, then the window shifts. -/
def keyedPairs (p : List String) : List String → Option (List (String × String))
  | [] => some []
  | w :: ws =>
    match pfxShift p w with
    | none => none
    | some p2 =>
      match keyedPairs p2 ws with
      | none => none
      | some rest => some ((pfxKey p, w) :: rest)

/-- Formalisation of the spec's insertion-order sentence ("collection
order ... must be insertion order — first-seen continuation first"): the
tokens observed to follow key `k`, in input order, starting from the
all-empty window of order `n`. -/
def followersSpec (n : Nat) (toks : List String) (k : String) : Option (List String) :=
  (keyedPairs (List.replicate n "") toks).map
    (fun ps => (ps.filter (fun q => q.1 == k)).map (fun q => q.2))

/-- The choice oracle that always selects the first candidate. -/
def pickFirst : Nat → Nat := fun _ => 0

/-- A sink on which every write operation succeeds. -/
def sinkOk : Nat → Option String := fun _ => none

/-! ### Helper lemmas -/

theorem pfxShift_of_ne_nil (p : List String) (w : String) (h : p ≠ []) :
    pfxShift p w = some (p.tail ++ [w]) := by
  cases p with
  | nil => exact absurd rfl h
  | cons a t => rfl

theorem pfxShift_length (p q : List String) (w : String)
    (h : pfxShift p w = some q) : q.length = p.length := by
  cases p with
  | nil => simp [pfxShift] at h
  | cons a t =>
    simp [pfxShift] at h
    subst h
    simp

theorem mapGet_mapAppend (m : List (String × List String)) (k w k2 : String) :
    mapGet (mapAppend m k w) k2 =
      if k = k2 then mapGet m k2 ++ [w] else mapGet m k2 := by
  induction m with
  | nil =>
    by_cases hk : k = k2 <;> simp [mapAppend, mapGet, hk]
  | cons q rest ih =>
    obtain ⟨k0, ws⟩ := q
    by_cases h0 : k0 = k
    · subst h0
      by_cases hk : k0 = k2 <;> simp [mapAppend, mapGet, hk]
    · by_cases hk : k0 = k2
      · subst hk
        have : ¬ k = k0 := fun h => h0 h.symm
        simp [mapAppend, mapGet, h0, this]
      · simp [mapAppend, mapGet, h0, hk, ih]

theorem mapAppend_values_ne_nil (m : List (String × List String)) (k w : String)
    (h : ∀ q ∈ m, q.2 ≠ []) : ∀ q ∈ mapAppend m k w, q.2 ≠ [] := by
  induction m with
  | nil =>
    intro q hq
    simp [mapAppend] at hq
    subst hq
    simp
  | cons q0 rest ih =>
    obtain ⟨k0, ws⟩ := q0
    intro q hq
    by_cases h0 : k0 = k
    · simp [mapAppend, h0] at hq
      rcases hq with hq | hq
      · subst hq; simp
      · exact h q (List.mem_cons_of_mem _ hq)
    · simp only [mapAppend, if_neg h0, List.mem_cons] at hq
      rcases hq with hq | hq
      · subst hq
        exact h (k0, ws) (List.mem_cons_self _ _)
      · exact ih (fun q2 hq2 => h q2 (List.mem_cons_of_mem _ hq2)) q hq

theorem buildLoop_isSome (toks : List String) :
    ∀ (p : List String) (m : List (String × List String)), p ≠ [] →
      ∃ m2, buildLoop m p toks = some m2 := by
  induction toks with
  | nil => intro p m _; exact ⟨m, rfl⟩
  | cons w ws ih =>
    intro p m hp
    have hs := pfxShift_of_ne_nil p w hp
    have hne : p.tail ++ [w] ≠ [] := by simp
    obtain ⟨m2, hm2⟩ := ih (p.tail ++ [w]) (mapAppend m (pfxKey p) w) hne
    exact ⟨m2, by simp [buildLoop, hs, hm2]⟩

theorem buildLoop_values_ne_nil (toks : List String) :
    ∀ (p : List String) (m m2 : List (String × List String)),
      buildLoop m p toks = some m2 → (∀ q ∈ m, q.2 ≠ []) → ∀ q ∈ m2, q.2 ≠ [] := by
  induction toks with
  | nil =>
    intro p m m2 hb hm
    simp [buildLoop] at hb
    subst hb
    exact hm
  | cons w ws ih =>
    intro p m m2 hb hm
    cases hs : pfxShift p w with
    | none => simp [buildLoop, hs] at hb
    | some p2 =>
      simp only [buildLoop, hs] at hb
      exact ih p2 (mapAppend m (pfxKey p) w) m2 hb
        (mapAppend_values_ne_nil m (pfxKey p) w hm)

theorem buildLoop_mapGet (toks : List String) :
    ∀ (p : List String) (m m2 : List (String × List String)),
      buildLoop m p toks = some m2 →
      ∃ ps, keyedPairs p toks = some ps ∧
        ∀ k, mapGet m2 k =
          mapGet m k ++ (ps.filter (fun q => q.1 == k)).map (fun q => q.2) := by
  induction toks with
  | nil =>
    intro p m m2 hb
    simp [buildLoop] at hb
    subst hb
    exact ⟨[], rfl, by intro k; simp [List.filter]⟩
  | cons w ws ih =>
    intro p m m2 hb
    cases hs : pfxShift p w with
    | none => simp [buildLoop, hs] at hb
    | some p2 =>
      simp only [buildLoop, hs] at hb
      obtain ⟨ps, hps, hget⟩ := ih p2 (mapAppend m (pfxKey p) w) m2 hb
      refine ⟨(pfxKey p, w) :: ps, by simp [keyedPairs, hs, hps], ?_⟩
      intro k
      rw [hget k, mapGet_mapAppend]
      by_cases hk : pfxKey p = k
      · simp [List.filter, hk]
      · have : ¬ (pfxKey p == k) = true := by
          simpa using hk
        simp [List.filter, hk, this]


theorem genLoop_ch (pick : Nat → Nat) (sink : Nat → Option String) :
    ∀ (i : Nat) (st st2 : GenSt) (e : Option String),
      genLoop pick sink i st = some (st2, e) → st2.ch = st.ch := by
  intro i
  induction i with
  | zero =>
    intro st st2 e h
    simp [genLoop] at h
    rw [h.1]
  | succ i ih =>
    intro st st2 e h
    simp only [genLoop] at h
    split at h
    · simp at h
      rw [h.1]
    · split at h
      · simp at h
        rw [← h.1]
      · split at h
        · exact absurd h (by simp)
        · have h2 := ih _ st2 e h
          simpa using h2

theorem genLoop_out_le (pick : Nat → Nat) (sink : Nat → Option String) :
    ∀ (i : Nat) (st st2 : GenSt) (e : Option String),
      genLoop pick sink i st = some (st2, e) →
      st2.out.length ≤ st.out.length + i := by
  intro i
  induction i with
  | zero =>
    intro st st2 e h
    simp [genLoop] at h
    rw [h.1]
    simp
  | succ i ih =>
    intro st st2 e h
    simp only [genLoop] at h
    split at h
    · simp at h
      rw [h.1]
      omega
    · split at h
      · simp at h
        rw [← h.1]
        simp
      · split at h
        · exact absurd h (by simp)
        · have := ih _ st2 e h
          simp at this
          omega

theorem genLoop_isSome (pick : Nat → Nat) (sink : Nat → Option String) :
    ∀ (i : Nat) (st : GenSt), st.p ≠ [] → (genLoop pick sink i st).isSome := by
  intro i
  induction i with
  | zero => intro st _; simp [genLoop]
  | succ i ih =>
    intro st hp
    simp only [genLoop]
    split
    · simp
    · rw [pfxShift_of_ne_nil st.p _ hp]
      split
      · simp
      · exact ih _ (by simp)

theorem genLoop_err_sink (pick : Nat → Nat) (sink : Nat → Option String) :
    ∀ (i : Nat) (st st2 : GenSt) (e : String),
      genLoop pick sink i st = some (st2, some e) → ∃ k, sink k = some e := by
  intro i
  induction i with
  | zero =>
    intro st st2 e h
    simp [genLoop] at h
  | succ i ih =>
    intro st st2 e h
    simp only [genLoop] at h
    split at h
    · simp at h
    · rename_i hsk
      split at h
      · rename_i e0 hs0
        simp at h
        exact ⟨st.ops, by rw [hs0, h.2]⟩
      · split at h
        · exact absurd h (by simp)
        · exact ih _ st2 e h

theorem genLoop_ok_of_sinkOk (pick : Nat → Nat) (sink : Nat → Option String)
    (hsink : ∀ k, sink k = none) :
    ∀ (i : Nat) (st st2 : GenSt) (e : Option String),
      genLoop pick sink i st = some (st2, e) → e = none := by
  intro i
  induction i with
  | zero =>
    intro st st2 e h
    simp [genLoop] at h
    exact h.2.symm
  | succ i ih =>
    intro st st2 e h
    simp only [genLoop] at h
    split at h
    · simp at h
      exact h.2.symm
    · split at h
      · rename_i e0 hs0
        rw [hsink st.ops] at hs0
        exact absurd hs0 (by simp)
      · split at h
        · exact absurd h (by simp)
        · exact ih _ st2 e h

theorem genLoop_out_prefix (pick : Nat → Nat) (sink : Nat → Option String) :
    ∀ (i : Nat) (st st0 : GenSt) (e0 : Option String),
      genLoop pick sink i st = some (st0, e0) → st.out <+: st0.out := by
  intro i
  induction i with
  | zero =>
    intro st st0 e0 h
    simp [genLoop] at h
    rw [← h.1]
  | succ i ih =>
    intro st st0 e0 h
    simp only [genLoop] at h
    split at h
    · simp at h
      rw [← h.1]
    · split at h
      · simp at h
        rw [← h.1]
      · split at h
        · exact absurd h (by simp)
        · have hpre := ih _ st0 e0 h
          simp only at hpre
          exact (List.prefix_append st.out _).trans hpre

theorem genLoop_ops_ge_out (pick : Nat → Nat) (sink : Nat → Option String) :
    ∀ (i : Nat) (st st0 : GenSt) (e0 : Option String),
      genLoop pick sink i st = some (st0, e0) →
      st0.out.length + st.ops ≤ st.out.length + st0.ops := by
  intro i
  induction i with
  | zero =>
    intro st st0 e0 h
    simp [genLoop] at h
    rw [← h.1]
  | succ i ih =>
    intro st st0 e0 h
    simp only [genLoop] at h
    split at h
    · simp at h
      rw [← h.1]
    · split at h
      · simp at h
        rw [← h.1]
        simp
      · split at h
        · exact absurd h (by simp)
        · have h2 := ih _ st0 e0 h
          simp at h2
          omega

theorem genLoop_first_write_failure (pick : Nat → Nat) (sink : Nat → Option String)
    (k : Nat) (e : String) (hbelow : ∀ j, j < k → sink j = none)
    (hke : sink k = some e) :
    ∀ (i : Nat) (st st0 : GenSt) (e0 : Option String),
      genLoop pick sinkOk i st = some (st0, e0) →
      st.ops ≤ k → k < st0.ops →
      ∃ st2, genLoop pick sink i st = some (st2, some e) ∧
        st2.ops = k + 1 ∧ st2.out.length = st.out.length + (k - st.ops) ∧
        st2.out <+: st0.out := by
  intro i
  induction i with
  | zero =>
    intro st st0 e0 h0 hle hlt
    simp [genLoop] at h0
    rw [← h0.1] at hlt
    omega
  | succ i ih =>
    intro st st0 e0 h0 hle hlt
    simp only [genLoop] at h0 ⊢
    by_cases hw : mapGet st.ch (pfxKey st.p) = []
    · rw [dif_pos hw] at h0
      simp at h0
      rw [← h0.1] at hlt
      omega
    · rw [dif_neg hw] at h0
      rw [dif_neg hw]
      split at h0
      · rename_i e1 hs1
        simp [sinkOk] at hs1
      · split at h0
        · exact absurd h0 (by simp)
        · rename_i p2 hp2
          have hpre0 : st.out <+: st0.out := by
            have hpre := genLoop_out_prefix pick sinkOk i _ st0 e0 h0
            simp only at hpre
            exact (List.prefix_append st.out _).trans hpre
          by_cases hops : st.ops = k
          · rw [hops, hke]
            exact ⟨⟨st.ch, st.p, st.out, k + 1⟩, rfl, rfl, by simp, hpre0⟩
          · have hs0 : sink st.ops = none := hbelow st.ops (by omega)
            rw [hs0]
            obtain ⟨st2, hg, hops2, hlen2, hpre2⟩ :=
              ih _ st0 e0 h0 (by simp; omega) hlt
            refine ⟨st2, hg, hops2, ?_, hpre2⟩
            simp at hlen2
            omega

/-! ### Claim theorems -/

/-- Claim C7: with order N=1, building from `"a a a b"` yields exactly the
two keys `""` (mapped to `["a"]`) and `"a"` (mapped to `["a","a","b"]`);
no key `"b"` is created, since the last token never serves as a key. -/
theorem build_order_one_a_a_a_b :
    (newChain 1).build ["a", "a", "a", "b"] none =
      some ⟨[("", ["a"]), ("a", ["a", "a", "b"])], 1⟩ := by
  rfl

/-- Claim C9: for a window of length at least 1, `Shift` drops the oldest
word, appends the new word at the end, and preserves the length. -/
theorem pfxShift_drops_oldest_appends (p : List String) (w : String)
    (h : 1 ≤ p.length) :
    pfxShift p w = some (p.tail ++ [w]) ∧ (p.tail ++ [w]).length = p.length := by
  have hne : p ≠ [] := by
    intro h0
    rw [h0] at h
    simp at h
  refine ⟨pfxShift_of_ne_nil p w hne, ?_⟩
  rw [List.length_append, List.length_tail]
  simp
  omega

/-- Witness for C9 at the window `["a", "b"]` and word `"c"`. -/
theorem pfxShift_drops_oldest_appends_witness :
    pfxShift ["a", "b"] "c" = some (["a", "b"].tail ++ ["c"]) ∧
      ((["a", "b"] : List String).tail ++ ["c"]).length = (["a", "b"] : List String).length :=
  pfxShift_drops_oldest_appends ["a", "b"] "c" (by decide)

/-- Counterexample to claim C1 as stated: with order N=2 on input
`"the cat sat the cat ran"`, generating with the always-first choice and
`maxTokens = 6` does NOT reproduce `"the cat sat the cat ran"` — at the
key `"the cat"` the first recorded continuation is `"sat"`, not `"ran"`. -/
theorem roundtrip_first_choice_counterexample :
    ¬ (((newChain 2).build ["the", "cat", "sat", "the", "cat", "ran"] none).bind
        (fun c => c.generate pickFirst sinkOk 6)).map GenResult.out =
      some ["the", "cat", "sat", "the", "cat", "ran"] := by
  decide

/-- Claim C1 (amended): with order N=2 on input
`"the cat sat the cat ran"`, generating with the always-first choice and
`maxTokens = 6` deterministically produces `"the cat sat the cat sat"`
(the first-seen continuation of the key `"the cat"` is `"sat"`). -/
theorem roundtrip_first_choice :
    ((newChain 2).build ["the", "cat", "sat", "the", "cat", "ran"] none).bind
        (fun c => c.generate pickFirst sinkOk 6) =
      some ⟨["the", "cat", "sat", "the", "cat", "sat"], none, none,
        [(" ", ["the"]), (" the", ["cat"]), ("the cat", ["sat", "ran"]),
         ("cat sat", ["the"]), ("sat the", ["cat"])]⟩ := by
  rfl

/-- Counterexample to claim C2 as stated: on a stream that fails with a
non-end-of-stream read error after yielding `"a"`, `Build` completes
normally with an ordinary `Chain` — identical to the end-of-stream run —
and no error reaches the caller (`Build` has no error result at all). -/
theorem build_read_error_counterexample :
    (newChain 1).build ["a"] (some "disk read failure") = some ⟨[("", ["a"])], 1⟩ ∧
      (newChain 1).build ["a"] (some "disk read failure") =
        (newChain 1).build ["a"] none := by
  exact ⟨rfl, rfl⟩

/-- Claim C2 (amended): a read error other than end-of-stream ends the
build loop exactly as end-of-stream does — the resulting `Chain` is the
same and no error is propagated (`Build` returns nothing); end-of-stream
terminates `Build` cleanly. -/
theorem build_swallows_read_errors (N : Nat) (toks : List String) (e : String)
    (hN : 1 ≤ N) :
    (newChain N).build toks (some e) = (newChain N).build toks none ∧
      ((newChain N).build toks none).isSome := by
  refine ⟨rfl, ?_⟩
  have hne : List.replicate N "" ≠ ([] : List String) := by
    simp
    omega
  obtain ⟨m, hm⟩ := buildLoop_isSome toks (List.replicate N "") [] hne
  simp [Chain.build, newChain, hm]

/-- Witness for C2 (amended) at N=1 on the stream `["a"]` failing with a
read error. -/
theorem build_swallows_read_errors_witness :
    (newChain 1).build ["a"] (some "read failure") = (newChain 1).build ["a"] none ∧
      ((newChain 1).build ["a"] none).isSome :=
  build_swallows_read_errors 1 ["a"] "read failure" (by decide)

/-- Counterexample to claim C3 as stated: a sink whose only failing write
operation is the final deferred `Flush`.  The flush — a write performed by
`Generate` — fails, yet `Generate` returns no error (`err = none`): the
source discards the result of `defer bufWriter.Flush()`. -/
theorem generate_flush_error_discarded_counterexample :
    Chain.generate ⟨[("", ["a"])], 1⟩ pickFirst
        (fun k => if k = 1 then some "flush failure" else none) 5 =
      some ⟨["a"], none, some "flush failure", [("", ["a"])]⟩ := by
  rfl

/-- Claim C3 (amended): if a `WriteString` performed during the
generation loop fails, `Generate` aborts — it emits exactly the tokens
written before the failing write — and returns that write error (third
conjunct, with the loop's writes read off the reference run against the
all-success sink); every error value `Generate` returns is a write error
reported by the sink, and if every write operation on the sink succeeds
then `Generate` returns no error; the outcome of the final deferred
flush, however, is discarded and never returned. -/
theorem generate_write_error_propagation (c : Chain) (pick : Nat → Nat)
    (sink : Nat → Option String) (n : Int) (r : GenResult)
    (h : c.generate pick sink n = some r) :
    (∀ e, r.err = some e → ∃ k, sink k = some e) ∧
      ((∀ k, sink k = none) → r.err = none) ∧
      (∀ (r0 : GenResult) (k : Nat) (e : String),
        c.generate pick sinkOk n = some r0 → k < r0.out.length →
        (∀ j, j < k → sink j = none) → sink k = some e →
        r.err = some e ∧ r.out = r0.out.take k) := by
  simp only [Chain.generate] at h
  split at h
  · exact absurd h (by simp)
  · rename_i st e1 hst
    simp only [Option.some.injEq] at h
    refine ⟨?_, ?_, ?_⟩
    · intro e0 he0
      rw [← h] at he0
      simp at he0
      rw [he0] at hst
      exact genLoop_err_sink pick sink n.toNat _ st e0 hst
    · intro hsink
      rw [← h]
      simpa using genLoop_ok_of_sinkOk pick sink hsink n.toNat _ st e1 hst
    · intro r0 k e h0 hk hbelow hke
      simp only [Chain.generate] at h0
      split at h0
      · exact absurd h0 (by simp)
      · rename_i st0 e00 hst0
        simp only [Option.some.injEq] at h0
        have hout0 : st0.out.length ≤ st0.ops := by
          have h2 := genLoop_ops_ge_out pick sinkOk n.toNat _ st0 e00 hst0
          simpa using h2
        have hklt : k < st0.ops := by
          rw [← h0] at hk
          simp at hk
          omega
        obtain ⟨st2, hg, hops2, hlen2, hpre2⟩ :=
          genLoop_first_write_failure pick sink k e hbelow hke n.toNat
            ⟨c.chain, List.replicate c.pfxLen "", [], 0⟩ st0 e00 hst0 (by simp) hklt
        rw [hg] at hst
        simp at hst
        have hlen : st2.out.length = k := by
          simpa using hlen2
        have htake : st2.out = st0.out.take k := by
          have h3 := List.prefix_iff_eq_take.mp hpre2
          rw [hlen] at h3
          exact h3
        constructor
        · rw [← h]
          simp
          exact hst.2.symm
        · rw [← h, ← h0]
          simp
          rw [← hst.1]
          exact htake

/-- Witness for C3 (amended): a run whose second loop write fails
returns exactly that error and truncates the output to the one token
written before it. -/
theorem generate_write_error_propagation_witness :
    GenResult.err ⟨["a"], some "write failure", some "write failure",
        [("", ["a"]), ("a", ["b"])]⟩ = some "write failure" ∧
      GenResult.out ⟨["a"], some "write failure", some "write failure",
          [("", ["a"]), ("a", ["b"])]⟩ =
        (GenResult.out ⟨["a", "b"], none, none,
            [("", ["a"]), ("a", ["b"])]⟩).take 1 :=
  (generate_write_error_propagation ⟨[("", ["a"]), ("a", ["b"])], 1⟩ pickFirst
      (fun j => if j = 1 then some "write failure" else none) 5
      ⟨["a"], some "write failure", some "write failure", [("", ["a"]), ("a", ["b"])]⟩
      (by rfl)).2.2
    ⟨["a", "b"], none, none, [("", ["a"]), ("a", ["b"])]⟩ 1 "write failure"
    (by rfl) (by decide)
    (fun j hj => by
      have hj0 : j = 0 := Nat.lt_one_iff.mp hj
      subst hj0
      rfl)
    (by rfl)

theorem build_some_elim (N : Nat) (toks : List String) (e : Option String)
    (c2 : Chain) (h : (newChain N).build toks e = some c2) :
    ∃ m, buildLoop [] (List.replicate N "") toks = some m ∧ c2 = ⟨m, N⟩ := by
  simp only [Chain.build, newChain] at h
  split at h
  · exact absurd h (by simp)
  · rename_i m hm
    simp only [Option.some.injEq] at h
    exact ⟨m, hm, h.symm⟩

theorem generate_chainAfter (c : Chain) (pick : Nat → Nat)
    (sink : Nat → Option String) (n : Int) (r : GenResult)
    (h : c.generate pick sink n = some r) : r.chainAfter = c.chain := by
  simp only [Chain.generate] at h
  split at h
  · exact absurd h (by simp)
  · rename_i st e hst
    simp only [Option.some.injEq] at h
    rw [← h]
    simpa using genLoop_ch pick sink n.toNat _ st e hst

/-- Claim C4: for every input stream and prefix order N ≥ 1, every key
present in the built `Chain`'s map carries a non-empty collection, and
`Generate` leaves the map untouched (so it preserves the invariant,
creating and emptying nothing). -/
theorem build_generate_nonempty_invariant (N : Nat) (toks : List String)
    (endErr : Option String) (c2 : Chain) (_hN : 1 ≤ N)
    (hb : (newChain N).build toks endErr = some c2) :
    (∀ q ∈ c2.chain, q.2 ≠ []) ∧
      ∀ (pick : Nat → Nat) (sink : Nat → Option String) (n : Int) (r : GenResult),
        c2.generate pick sink n = some r →
          r.chainAfter = c2.chain ∧ ∀ q ∈ r.chainAfter, q.2 ≠ [] := by
  obtain ⟨m, hm, hc⟩ := build_some_elim N toks endErr c2 hb
  have hvals : ∀ q ∈ c2.chain, q.2 ≠ [] := by
    rw [hc]
    intro q hq
    exact buildLoop_values_ne_nil toks (List.replicate N "") [] m hm (by simp) q hq
  refine ⟨hvals, ?_⟩
  intro pick sink n r hg
  have hca := generate_chainAfter c2 pick sink n r hg
  exact ⟨hca, by rw [hca]; exact hvals⟩

/-- Witness for C4: building `["a"]` at N=1 satisfies the hypotheses; the
entry of the key `""` is non-empty. -/
theorem build_generate_nonempty_invariant_witness :
    (("", ["a"]) : String × List String).2 ≠ [] :=
  (build_generate_nonempty_invariant 1 ["a"] none ⟨[("", ["a"])], 1⟩
      (by decide) (by rfl)).1 ("", ["a"]) (by simp)

/-- Claim C5: `Generate` emits at most `maxTokens` tokens, for every
chain, every choice oracle, every sink and every integer bound (a bound
`n ≤ 0` yields no iteration), even when the chain is cyclic. -/
theorem generate_at_most_maxTokens (c : Chain) (pick : Nat → Nat)
    (sink : Nat → Option String) (n : Int) (r : GenResult)
    (h : c.generate pick sink n = some r) : r.out.length ≤ n.toNat := by
  simp only [Chain.generate] at h
  split at h
  · exact absurd h (by simp)
  · rename_i st e hst
    simp only [Option.some.injEq] at h
    rw [← h]
    simpa using genLoop_out_le pick sink n.toNat _ st e hst

/-- Witness for C5: a run with bound 1 emits one token. -/
theorem generate_at_most_maxTokens_witness :
    (GenResult.out ⟨["a"], none, none, [("", ["a"])]⟩).length ≤ (1 : Int).toNat :=
  generate_at_most_maxTokens ⟨[("", ["a"])], 1⟩ pickFirst sinkOk 1
    ⟨["a"], none, none, [("", ["a"])]⟩ (by rfl)

/-- Claim C6: `Build` is deterministic — two runs on identical token
streams with the same order N produce equal `Chain`s (whatever condition
ended each stream), and each key's collection is exactly the sequence of
continuations observed for that key in input order (first-seen first). -/
theorem build_deterministic_insertion_order (N : Nat) (toks : List String)
    (e1 e2 : Option String) (c1 c2 : Chain)
    (h1 : (newChain N).build toks e1 = some c1)
    (h2 : (newChain N).build toks e2 = some c2) :
    c1 = c2 ∧ ∀ k, followersSpec N toks k = some (mapGet c1.chain k) := by
  have heq : (newChain N).build toks e1 = (newChain N).build toks e2 := rfl
  rw [h1, h2] at heq
  simp only [Option.some.injEq] at heq
  refine ⟨heq, ?_⟩
  obtain ⟨m, hm, hc⟩ := build_some_elim N toks e1 c1 h1
  obtain ⟨ps, hps, hget⟩ := buildLoop_mapGet toks (List.replicate N "") [] m hm
  intro k
  rw [hc]
  simp only [followersSpec, hps, Option.map_some']
  rw [hget k]
  simp [mapGet]

/-- Witness for C6: two builds of `["a", "b"]` at N=1, checked at the
key `"a"`. -/
theorem build_deterministic_insertion_order_witness :
    (⟨[("", ["a"]), ("a", ["b"])], 1⟩ : Chain) = ⟨[("", ["a"]), ("a", ["b"])], 1⟩ ∧
      followersSpec 1 ["a", "b"] "a" =
        some (mapGet [("", ["a"]), ("a", ["b"])] "a") := by
  have h := build_deterministic_insertion_order 1 ["a", "b"] none (some "late read failure")
    ⟨[("", ["a"]), ("a", ["b"])], 1⟩ ⟨[("", ["a"]), ("a", ["b"])], 1⟩ (by rfl) (by rfl)
  exact ⟨h.1, h.2 "a"⟩

/-- Claim C8: against a `Chain` whose map is empty, `Generate` terminates
at once with zero tokens emitted and no error, for every order N ≥ 1,
every bound, every choice oracle and every sink. -/
theorem generate_empty_chain (N : Nat) (pick : Nat → Nat)
    (sink : Nat → Option String) (n : Int) (_hN : 1 ≤ N) :
    Chain.generate ⟨[], N⟩ pick sink n = some ⟨[], none, sink 0, []⟩ := by
  simp only [Chain.generate]
  cases hn : n.toNat with
  | zero => rfl
  | succ i => rfl

/-- Witness for C8 at N=1, bound 5. -/
theorem generate_empty_chain_witness :
    Chain.generate ⟨[], 1⟩ pickFirst sinkOk 5 = some ⟨[], none, none, []⟩ :=
  generate_empty_chain 1 pickFirst sinkOk 5 (by decide)

/-- Counterexample to claim C10 as stated: with order 0 and a `Chain`
containing the empty key, `Generate` does NOT always panic — with
`maxTokens = 0` the loop body never runs and the call returns normally. -/
theorem generate_order_zero_no_panic_counterexample :
    Chain.generate ⟨[("", ["a"])], 0⟩ pickFirst sinkOk 0 =
      some ⟨[], none, none, [("", ["a"])]⟩ := by
  rfl

/-- Claim C10 (amended): `Shift` on a length-0 window panics; hence with
order 0, `Build` panics on every non-empty input, and `Generate` panics
against a chain mapping the empty key to a non-empty collection provided
the bound allows an iteration and the first write succeeds (a failing
first write returns its error before `Shift` runs, and a bound of 0 skips
the loop); for every order N ≥ 1 all indexing in `Shift`, `Build` and
`Generate` stays in bounds — no run panics. -/
theorem order_zero_panics_order_pos_safe :
    (∀ w, pfxShift [] w = none) ∧
    (∀ (w : String) (toks : List String) (e : Option String),
      (newChain 0).build (w :: toks) e = none) ∧
    (∀ (m : List (String × List String)) (pick : Nat → Nat)
        (sink : Nat → Option String) (n : Int) (w : String) (ws : List String),
      mapGet m "" = w :: ws → sink 0 = none → 1 ≤ n.toNat →
      Chain.generate ⟨m, 0⟩ pick sink n = none) ∧
    (∀ (N : Nat) (toks : List String) (e : Option String), 1 ≤ N →
      ((newChain N).build toks e).isSome) ∧
    (∀ (c : Chain) (pick : Nat → Nat) (sink : Nat → Option String) (n : Int),
      1 ≤ c.pfxLen → (c.generate pick sink n).isSome) := by
  refine ⟨fun w => rfl, fun w toks e => rfl, ?_, ?_, ?_⟩
  · intro m pick sink n w ws hget hsink hn
    obtain ⟨i, hi⟩ : ∃ i, n.toNat = i + 1 := ⟨n.toNat - 1, by omega⟩
    have hne : ¬ mapGet m (pfxKey ([] : List String)) = [] := by
      rw [show pfxKey ([] : List String) = "" from rfl, hget]
      simp
    have hloop : genLoop pick sink (i + 1) ⟨m, [], [], 0⟩ = none := by
      simp only [genLoop]
      rw [dif_neg hne, hsink]
      rfl
    simp [Chain.generate, hi, hloop]
  · intro N toks e hN
    have hne : List.replicate N "" ≠ ([] : List String) := by
      simp
      omega
    obtain ⟨m, hm⟩ := buildLoop_isSome toks (List.replicate N "") [] hne
    simp [Chain.build, newChain, hm]
  · intro c pick sink n hc
    have hne : List.replicate c.pfxLen "" ≠ ([] : List String) := by
      simp
      omega
    have h := genLoop_isSome pick sink n.toNat ⟨c.chain, List.replicate c.pfxLen "", [], 0⟩ hne
    rw [Option.isSome_iff_exists] at h
    obtain ⟨⟨st, e⟩, hst⟩ := h
    simp [Chain.generate, hst]

/-- Witness for C10 (amended): each conjunct applied at a concrete input,
discharging its hypotheses there. -/
theorem order_zero_panics_order_pos_safe_witness :
    pfxShift [] "a" = none ∧
    (newChain 0).build ["a"] none = none ∧
    Chain.generate ⟨[("", ["a"])], 0⟩ pickFirst sinkOk 1 = none ∧
    ((newChain 1).build ["a"] none).isSome ∧
    (Chain.generate ⟨[("", ["a"])], 1⟩ pickFirst sinkOk 1).isSome :=
  ⟨order_zero_panics_order_pos_safe.1 "a",
   order_zero_panics_order_pos_safe.2.1 "a" [] none,
   order_zero_panics_order_pos_safe.2.2.1 [("", ["a"])] pickFirst sinkOk 1 "a" []
     (by rfl) (by rfl) (by decide),
   order_zero_panics_order_pos_safe.2.2.2.1 1 ["a"] none (by decide),
   order_zero_panics_order_pos_safe.2.2.2.2 ⟨[("", ["a"])], 1⟩ pickFirst sinkOk 1
     (by decide)⟩
